import Mathlib

/-!
Shallow embedding of `leanconstruction.py`: a Lean-construction project
simulator.  The Python module defines a `Task` class with a randomized
duration model, a `simulate_project` function that hardcodes a 9-task
project, topologically orders it with a recursive `visit`, computes a
forward-pass schedule, and derives `total_duration`, `total_value_added`
and `efficiency`; `run_monte_carlo_simulation` repeats this and averages.

Python's global Mersenne-Twister stream is embedded as an explicit stream
`rng : ℕ → ℚ` together with a cursor `k : ℕ`: `rng k` is the value of the
`k`-th call to `random.random()`.  `random.uniform(0, f)` is
`0 + (f - 0) * random.random()`, i.e. `f * rng k`.  Numbers are embedded
as rationals.  Python exceptions are embedded as `Except PyErr`; the
interpreter's recursion limit is embedded as fuel on the recursive
`visit` (exhaustion = `RecursionError`).
-/

set_option autoImplicit false

namespace LeanConstruction

/-- The randomness stream: value of the `k`-th call to `random.random()`. -/
abbrev RNG : Type := ℕ → ℚ

/-- Python exceptions that the embedded code can raise. -/
inductive PyErr where
  | keyError (key : String)
  | recursionError
  | zeroDivisionError
  | valueError
  deriving DecidableEq

/-- `class Task` (lines 3-21): static configuration of one activity. -/
structure Task where
  name : String
  base_duration : ℚ
  value_added : Bool
  delay_factor : ℚ := 0
  delay_probability : ℚ := 1
  dependencies : List String := []
  deriving DecidableEq

/-- `Task.simulate_duration` (lines 23-29).  Returns the realized duration
together with the new cursor into the randomness stream:
`delay = 0; if not value_added and delay_factor > 0: if random() <
delay_probability: delay = uniform(0, delay_factor); return base + delay`. -/
def Task.simulate_duration (t : Task) (rng : RNG) (k : ℕ) : ℚ × ℕ :=
  if t.value_added = false ∧ 0 < t.delay_factor then
    if rng k < t.delay_probability then
      (t.base_duration + t.delay_factor * rng (k + 1), k + 2)
    else
      (t.base_duration, k + 1)
  else
    (t.base_duration, k)

/-- `Task("Planejamento", 20, True, dependencies=[])` (line 50). -/
def taskPlanejamento : Task :=
  { name := "Planejamento", base_duration := 20, value_added := true, dependencies := [] }

/-- `Task("Licenciamento", 10, False, delay_factor=5*(1-lean_improvement),
delay_probability=0.8, dependencies=["Planejamento"])` (line 51). -/
def taskLicenciamento (li : ℚ) : Task :=
  { name := "Licenciamento", base_duration := 10, value_added := false,
    delay_factor := 5 * (1 - li), delay_probability := 0.8, dependencies := ["Planejamento"] }

/-- `Task("Mobilização", 5, False, delay_factor=3*(1-lean_improvement),
delay_probability=0.7, dependencies=["Licenciamento"])` (line 52). -/
def taskMobilizacao (li : ℚ) : Task :=
  { name := "Mobilização", base_duration := 5, value_added := false,
    delay_factor := 3 * (1 - li), delay_probability := 0.7, dependencies := ["Licenciamento"] }

/-- `Task("Escavação", 15, True, dependencies=["Mobilização"])` (line 53). -/
def taskEscavacao : Task :=
  { name := "Escavação", base_duration := 15, value_added := true, dependencies := ["Mobilização"] }

/-- `Task("Estrutura", 25, True, dependencies=["Escavação"])` (line 54). -/
def taskEstrutura : Task :=
  { name := "Estrutura", base_duration := 25, value_added := true, dependencies := ["Escavação"] }

/-- `Task("Alvenaria", 20, True, dependencies=["Estrutura"])` (line 55). -/
def taskAlvenaria : Task :=
  { name := "Alvenaria", base_duration := 20, value_added := true, dependencies := ["Estrutura"] }

/-- `Task("Instalações", 10, True, dependencies=["Estrutura"])` (line 56). -/
def taskInstalacoes : Task :=
  { name := "Instalações", base_duration := 10, value_added := true, dependencies := ["Estrutura"] }

/-- `Task("Acabamentos", 10, True, dependencies=["Alvenaria", "Instalações"])` (line 57). -/
def taskAcabamentos : Task :=
  { name := "Acabamentos", base_duration := 10, value_added := true,
    dependencies := ["Alvenaria", "Instalações"] }

/-- `Task("Inspeção", 5, True, dependencies=["Acabamentos"])` (line 58). -/
def taskInspecao : Task :=
  { name := "Inspeção", base_duration := 5, value_added := true, dependencies := ["Acabamentos"] }

/-- The hardcoded task list of `simulate_project` (lines 49-59),
parameterized by `lean_improvement`. -/
def projectTasks (li : ℚ) : List Task :=
  [taskPlanejamento, taskLicenciamento li, taskMobilizacao li, taskEscavacao,
   taskEstrutura, taskAlvenaria, taskInstalacoes, taskAcabamentos, taskInspecao]

/-- `tasks_by_name = {task.name: task for task in tasks}` (line 62).  On a
duplicated name the Python dict keeps the last binding, hence the
`reverse`. -/
def tasksByName (ts : List Task) (name : String) : Option Task :=
  ts.reverse.find? (fun t => t.name = name)

/-- The mutable state of the topological sort (lines 65-66): the `seen`
set and the `order` list. -/
structure VisitState where
  seen : List String
  order : List Task
  deriving DecidableEq

/-- The body of the `for dep in task.dependencies` loop inside `visit`
(lines 68-70), abstracted over the recursive call `recur` (which the
caller instantiates with `visit` at one less fuel, one stack frame
deeper): `if dep not in seen: visit(tasks_by_name[dep])`.  A missing name
raises `KeyError`, as `tasks_by_name[dep]` would. -/
def visitDepsWith (byName : String → Option Task)
    (recur : Task → VisitState → Except PyErr VisitState) :
    List String → VisitState → Except PyErr VisitState
  | [], st => .ok st
  | d :: ds, st =>
    if st.seen.contains d then
      visitDepsWith byName recur ds st
    else
      match byName d with
      | none => .error (.keyError d)
      | some t => (recur t st).bind fun st2 => visitDepsWith byName recur ds st2

/-- `visit` (lines 67-73), with fuel modelling the interpreter's recursion
limit: each nested call runs one frame deeper; at depth 0 the interpreter
raises `RecursionError`.  After the dependency loop:
`if task.name not in seen: seen.add(task.name); order.append(task)`. -/
def visit (byName : String → Option Task) : ℕ → Task → VisitState → Except PyErr VisitState
  | 0, _, _ => .error .recursionError
  | fuel + 1, t, st =>
    (visitDepsWith byName (visit byName fuel) t.dependencies st).bind fun st2 =>
      if st2.seen.contains t.name then .ok st2
      else .ok ⟨st2.seen ++ [t.name], st2.order ++ [t]⟩

/-- `for task in tasks: visit(task)` (lines 74-75); every top-level call
starts with the full recursion budget. -/
def visitAll (byName : String → Option Task) (fuel : ℕ) :
    List Task → VisitState → Except PyErr VisitState
  | [], st => .ok st
  | t :: ts, st => (visit byName fuel t st).bind fun st2 => visitAll byName fuel ts st2

/-- CPython's default recursion limit. -/
def recursionLimit : ℕ := 1000

/-- The whole topological-ordering pass of `simulate_project`
(lines 64-75) applied to an arbitrary task list. -/
def topoOrder (fuel : ℕ) (ts : List Task) : Except PyErr (List Task) :=
  (visitAll (tasksByName ts) fuel ts ⟨[], []⟩).map VisitState.order

/-- One row of the `schedule` dict (line 87):
`(start, finish, real_duration, value_added, base_duration)`. -/
structure ScheduleEntry where
  start : ℚ
  finish : ℚ
  duration : ℚ
  value_added : Bool
  base_duration : ℚ
  deriving DecidableEq

/-- The `schedule` dict, in insertion order. -/
abbrev Schedule : Type := List (String × ScheduleEntry)

/-- `schedule[dep][1]` (line 82).  In the source the key is always present
because dependencies are recorded before their dependents (a missing key
would raise `KeyError`); the `none` branch is unreachable. -/
def finishOf (sched : Schedule) (dep : String) : ℚ :=
  match List.lookup dep sched with
  | some e => e.finish
  | none => 0

/-- `max(schedule[dep][1] for dep in task.dependencies)` (line 82),
evaluated on a nonempty dependency list. -/
def maxFinish (sched : Schedule) : List String → ℚ
  | [] => 0
  | d :: ds => ds.foldl (fun a d2 => max a (finishOf sched d2)) (finishOf sched d)

/-- The forward-pass loop of `simulate_project` (lines 80-87): for each
task in order, `start = max(finish of deps)` or `0`, sample the duration,
`finish = start + duration`, append the entry.  Returns the schedule and
the final randomness cursor. -/
def computeSchedule (rng : RNG) : List Task → Schedule → ℕ → Schedule × ℕ
  | [], sched, k => (sched, k)
  | t :: rest, sched, k =>
    let start := if t.dependencies.isEmpty then 0 else maxFinish sched t.dependencies
    let dk := t.simulate_duration rng k
    computeSchedule rng rest
      (sched ++ [(t.name, ⟨start, start + dk.1, dk.1, t.value_added, t.base_duration⟩)]) dk.2

/-- Python's `/` on numbers: raises `ZeroDivisionError` on a zero divisor. -/
def pydiv (a b : ℚ) : Except PyErr ℚ :=
  if b = 0 then .error .zeroDivisionError else .ok (a / b)

/-- Python's `min` on a list of numbers: `ValueError` when empty. -/
def pymin : List ℚ → Except PyErr ℚ
  | [] => .error .valueError
  | x :: xs => .ok (xs.foldl min x)

/-- Python's `max` on a list of numbers: `ValueError` when empty. -/
def pymax : List ℚ → Except PyErr ℚ
  | [] => .error .valueError
  | x :: xs => .ok (xs.foldl max x)

/-- `simulate_project(return_schedule=True, lean_improvement=li)`
(lines 31-96), started at cursor `k` of the randomness stream; the final
cursor is returned so that consecutive calls (as in the Monte Carlo loop)
continue the same global stream.
`total_duration = schedule["Inspeção"][1] if "Inspeção" in schedule else
max(entry[1] for entry in schedule.values())` (line 89);
`total_value_added = sum(task.base_duration for task in tasks if
task.value_added)` (line 90);
`efficiency = 100 * (total_value_added / total_duration)` (line 91). -/
def simulateProjectK (li : ℚ) (rng : RNG) (k : ℕ) :
    Except PyErr ((Schedule × ℚ × ℚ × ℚ) × ℕ) :=
  (visitAll (tasksByName (projectTasks li)) recursionLimit (projectTasks li) ⟨[], []⟩).bind
    fun st =>
      let sk := computeSchedule rng st.order [] k
      let sched := sk.1
      (match List.lookup "Inspeção" sched with
        | some e => Except.ok e.finish
        | none => pymax (sched.map fun p : String × ScheduleEntry => p.2.finish)).bind
        fun total_duration =>
        let total_value_added :=
          (((projectTasks li).filter (fun t : Task => t.value_added)).map Task.base_duration).sum
        (pydiv total_value_added total_duration).bind fun ratio =>
          Except.ok ((sched, total_duration, total_value_added, 100 * ratio), sk.2)

/-- A single call of `simulate_project`, reading the stream from its
start (as after `random.seed(s)` with the seed `s` that produces the
stream `rng`). -/
def simulateProject (li : ℚ) (rng : RNG) : Except PyErr (Schedule × ℚ × ℚ × ℚ) :=
  (simulateProjectK li rng 0).map Prod.fst

/-- What `run_monte_carlo_simulation` prints (lines 132-141): averages,
efficiency, and the extremes of the observed total durations. -/
structure MCStats where
  avg_duration : ℚ
  avg_value_added : ℚ
  efficiency : ℚ
  min_duration : ℚ
  max_duration : ℚ
  deriving DecidableEq

/-- The `for _ in range(num_simulations)` loop (lines 127-131): each
iteration runs `simulate_project` on the continuing global stream and
records `(total_duration, total_value_added)`. -/
def mcLoop (li : ℚ) (rng : RNG) : ℕ → ℕ → Except PyErr (List (ℚ × ℚ) × ℕ)
  | 0, k => .ok ([], k)
  | n + 1, k =>
    (simulateProjectK li rng k).bind fun rk =>
      (mcLoop li rng n rk.2).bind fun rest =>
        .ok ((rk.1.2.1, rk.1.2.2.1) :: rest.1, rest.2)

/-- `run_monte_carlo_simulation(num_simulations, lean_improvement)`
(lines 116-141).  `range(n)` on `n ≤ 0` is empty; the averages divide by
`num_simulations` unconditionally (`ZeroDivisionError` when a divisor is
zero), and `min`/`max` on an empty list would raise `ValueError`. -/
def run_monte_carlo_simulation (num_simulations : ℤ) (li : ℚ) (rng : RNG) :
    Except PyErr MCStats :=
  (mcLoop li rng num_simulations.toNat 0).bind fun runs =>
    let durations := runs.1.map Prod.fst
    (pydiv durations.sum (num_simulations : ℚ)).bind fun avg_duration =>
      (pydiv (runs.1.map Prod.snd).sum (num_simulations : ℚ)).bind fun avg_value_added =>
        (pydiv avg_value_added avg_duration).bind fun r =>
          (pymin durations).bind fun mn =>
            (pymax durations).bind fun mx =>
              Except.ok ⟨avg_duration, avg_value_added, 100 * r, mn, mx⟩

/-- The delay-free reference pass: the same forward-pass fold as
`computeSchedule` with every realized duration pinned to the base
duration.  `computeSchedule` collapses to it whenever no task can take
the delay branch, and dominates it entrywise otherwise. -/
def detSchedule : List Task → Schedule → Schedule
  | [], sched => sched
  | t :: rest, sched =>
    let start := if t.dependencies.isEmpty then 0 else maxFinish sched t.dependencies
    detSchedule rest
      (sched ++ [(t.name, ⟨start, start + t.base_duration, t.base_duration,
        t.value_added, t.base_duration⟩)])

/-- The tasks no other task depends on. -/
def sinks (ts : List Task) : List String :=
  (ts.filter (fun t => !(ts.any (fun u => u.dependencies.contains t.name)))).map Task.name

/-- Dependency ids of a task list resolve within the prefix of names that
precede the task (so the list itself is a topological order). -/
def depsOrdered : List String → List Task → Prop
  | _, [] => True
  | seen, t :: rest =>
    (∀ d ∈ t.dependencies, d ∈ seen) ∧ depsOrdered (seen ++ [t.name]) rest


/-! ### Basic facts about the duration model -/

/-- A value-adding task (or one with a nonpositive delay factor) keeps its
base duration and consumes no randomness. -/
lemma Task.simulate_duration_det {t : Task} (rng : RNG) (k : ℕ)
    (h : ¬(t.value_added = false ∧ 0 < t.delay_factor)) :
    t.simulate_duration rng k = (t.base_duration, k) := by
  unfold Task.simulate_duration
  rw [if_neg h]

/-- Over nonnegative random draws every realized duration dominates the
base duration. -/
lemma Task.base_le_simulate_duration (t : Task) (rng : RNG) (k : ℕ)
    (hrng : ∀ j, 0 ≤ rng j) :
    t.base_duration ≤ (t.simulate_duration rng k).1 := by
  unfold Task.simulate_duration
  by_cases h1 : t.value_added = false ∧ 0 < t.delay_factor
  · rw [if_pos h1]
    by_cases h2 : rng k < t.delay_probability
    · rw [if_pos h2]
      have := mul_nonneg h1.2.le (hrng (k + 1))
      dsimp only
      linarith
    · rw [if_neg h2]
  · rw [if_neg h1]

/-- The cursor after sampling moves ahead by at most two draws. -/
lemma Task.simulate_duration_cursor (t : Task) (rng : RNG) (k : ℕ) :
    k ≤ (t.simulate_duration rng k).2 ∧ (t.simulate_duration rng k).2 ≤ k + 2 := by
  unfold Task.simulate_duration
  by_cases h1 : t.value_added = false ∧ 0 < t.delay_factor
  · rw [if_pos h1]
    by_cases h2 : rng k < t.delay_probability
    · rw [if_pos h2]; exact ⟨by omega, by omega⟩
    · rw [if_neg h2]; exact ⟨by omega, by omega⟩
  · rw [if_neg h1]; exact ⟨by omega, by omega⟩

/-! ### The topological sort -/

/-- When every dependency is already in `seen`, the loop body does
nothing. -/
lemma visitDepsWith_all_seen (byName : String → Option Task)
    (recur : Task → VisitState → Except PyErr VisitState) :
    ∀ (ds : List String) (st : VisitState), (∀ d ∈ ds, st.seen.contains d) →
      visitDepsWith byName recur ds st = .ok st := by
  intro ds
  induction ds with
  | nil => intro st _; rfl
  | cons d ds ih =>
    intro st h
    unfold visitDepsWith
    rw [if_pos (h d (List.mem_cons_self d ds))]
    exact ih st (fun x hx => h x (List.mem_cons_of_mem d hx))

/-- On a task list presented in dependency order with fresh, distinct
names, `visit` needs no recursion at all: the traversal succeeds with any
positive fuel and appends the tasks in list order. -/
lemma visitAll_ordered (byName : String → Option Task) (fuel : ℕ) (hf : 0 < fuel) :
    ∀ (ts : List Task) (st : VisitState),
      depsOrdered st.seen ts →
      (∀ t ∈ ts, ¬ st.seen.contains t.name) →
      (ts.map Task.name).Nodup →
      visitAll byName fuel ts st = .ok ⟨st.seen ++ ts.map Task.name, st.order ++ ts⟩ := by
  intro ts
  induction ts with
  | nil => intro st _ _ _; simp [visitAll]
  | cons t ts ih =>
    intro st hord hfresh hnodup
    obtain ⟨fuel, rfl⟩ : ∃ f, fuel = f + 1 := ⟨fuel - 1, by omega⟩
    unfold visitAll visit
    rw [visitDepsWith_all_seen byName _ t.dependencies st
      (fun d hd => List.elem_iff.mpr (hord.1 d hd))]
    have hni : ¬ st.seen.contains t.name = true :=
      hfresh t (List.mem_cons_self t ts)
    have hstep : (Except.ok st).bind (fun st2 : VisitState =>
        if st2.seen.contains t.name then Except.ok st2
        else Except.ok (ε := PyErr) ⟨st2.seen ++ [t.name], st2.order ++ [t]⟩) =
        Except.ok ⟨st.seen ++ [t.name], st.order ++ [t]⟩ := by
      simp only [Except.bind]
      rw [if_neg hni]
    rw [hstep]
    have := ih ⟨st.seen ++ [t.name], st.order ++ [t]⟩ hord.2
      (fun u hu hc => by
        rcases List.mem_append.mp (List.elem_iff.mp hc) with hs | he
        · exact hfresh u (List.mem_cons_of_mem t hu) (List.elem_iff.mpr hs)
        · exact (List.nodup_cons.mp hnodup).1
            ((List.mem_singleton.mp he) ▸ List.mem_map_of_mem Task.name hu))
      (List.nodup_cons.mp hnodup).2
    simp only [Except.bind]
    rw [this]
    simp

/-- The names of the hardcoded project, in list order. -/
def projectNames : List String :=
  ["Planejamento", "Licenciamento", "Mobilização", "Escavação", "Estrutura",
   "Alvenaria", "Instalações", "Acabamentos", "Inspeção"]

lemma projectTasks_map_name (li : ℚ) : (projectTasks li).map Task.name = projectNames := by
  simp [projectTasks, projectNames, taskPlanejamento, taskLicenciamento, taskMobilizacao,
    taskEscavacao, taskEstrutura, taskAlvenaria, taskInstalacoes, taskAcabamentos, taskInspecao]

lemma projectNames_nodup : projectNames.Nodup := by decide

lemma projectTasks_depsOrdered (li : ℚ) : depsOrdered [] (projectTasks li) := by
  simp [projectTasks, depsOrdered, taskPlanejamento, taskLicenciamento, taskMobilizacao,
    taskEscavacao, taskEstrutura, taskAlvenaria, taskInstalacoes, taskAcabamentos, taskInspecao]

/-- The hardcoded project is listed in dependency order, so the recursive
traversal visits and appends it in list order. -/
lemma visitAll_project (li : ℚ) (byName : String → Option Task) (fuel : ℕ) (hf : 0 < fuel) :
    visitAll byName fuel (projectTasks li) ⟨[], []⟩ =
      .ok ⟨projectNames, projectTasks li⟩ := by
  have := visitAll_ordered byName fuel hf (projectTasks li) ⟨[], []⟩
    (projectTasks_depsOrdered li) (by intro t _ h; simp at h)
    ((projectTasks_map_name li) ▸ projectNames_nodup)
  simpa [projectTasks_map_name li] using this

/-! ### Generic facts about the forward-pass schedule -/

lemma lookup_eq_none_of_not_mem {sched : Schedule} {d : String}
    (hd : d ∉ sched.map Prod.fst) : List.lookup d sched = none := by
  induction sched with
  | nil => rfl
  | cons p sched ih =>
    obtain ⟨a, e⟩ := p
    simp only [List.map_cons, List.mem_cons, not_or] at hd
    have hba : (d == a) = false := beq_eq_false_iff_ne.mpr hd.1
    simp only [List.lookup, hba]
    exact ih hd.2

lemma lookup_append_of_mem {sched rest : Schedule} {d : String}
    (hd : d ∈ sched.map Prod.fst) :
    List.lookup d (sched ++ rest) = List.lookup d sched := by
  induction sched with
  | nil => simp at hd
  | cons p sched ih =>
    obtain ⟨a, e⟩ := p
    by_cases h : d = a
    · subst h
      simp [List.lookup]
    · have hba : (d == a) = false := beq_eq_false_iff_ne.mpr h
      simp only [List.map_cons, List.mem_cons] at hd
      simp only [List.cons_append, List.lookup, hba]
      exact ih (hd.resolve_left h)

lemma lookup_append_of_none {sched rest : Schedule} {d : String}
    (hd : d ∉ sched.map Prod.fst) :
    List.lookup d (sched ++ rest) = List.lookup d rest := by
  induction sched with
  | nil => simp
  | cons p sched ih =>
    obtain ⟨a, e⟩ := p
    simp only [List.map_cons, List.mem_cons, not_or] at hd
    have hba : (d == a) = false := beq_eq_false_iff_ne.mpr hd.1
    simp only [List.cons_append, List.lookup, hba]
    exact ih hd.2

lemma finishOf_append_of_mem {sched rest : Schedule} {d : String}
    (hd : d ∈ sched.map Prod.fst) :
    finishOf (sched ++ rest) d = finishOf sched d := by
  unfold finishOf
  rw [lookup_append_of_mem hd]

lemma maxFinish_append_of_mem {sched rest : Schedule} {deps : List String}
    (h : ∀ d ∈ deps, d ∈ sched.map Prod.fst) :
    maxFinish (sched ++ rest) deps = maxFinish sched deps := by
  match deps with
  | [] => rfl
  | d :: ds =>
    simp only [maxFinish]
    rw [finishOf_append_of_mem (h d (List.mem_cons_self d ds))]
    exact List.foldl_ext _ _ _ (fun a d2 hd2 => by
      rw [finishOf_append_of_mem (h d2 (List.mem_cons_of_mem d hd2))])

/-- The entry recorded for task `t` when the accumulated schedule is
`sched` and the randomness cursor is `k`. -/
def stepEntry (rng : RNG) (t : Task) (sched : Schedule) (k : ℕ) : ScheduleEntry :=
  ⟨(if t.dependencies.isEmpty then 0 else maxFinish sched t.dependencies),
   (if t.dependencies.isEmpty then 0 else maxFinish sched t.dependencies) +
     (t.simulate_duration rng k).1,
   (t.simulate_duration rng k).1, t.value_added, t.base_duration⟩

/-- Unfolding one step of the forward pass. -/
lemma computeSchedule_cons (rng : RNG) (t : Task) (rest : List Task)
    (sched : Schedule) (k : ℕ) :
    computeSchedule rng (t :: rest) sched k =
      computeSchedule rng rest (sched ++ [(t.name, stepEntry rng t sched k)])
        (t.simulate_duration rng k).2 := rfl

/-- The forward pass only appends, one entry per task, keyed by the
task's name. -/
lemma computeSchedule_shape (rng : RNG) :
    ∀ (ts : List Task) (sched : Schedule) (k : ℕ),
      ∃ tail : Schedule, (computeSchedule rng ts sched k).1 = sched ++ tail ∧
        tail.map Prod.fst = ts.map Task.name := by
  intro ts
  induction ts with
  | nil => intro sched k; exact ⟨[], by simp [computeSchedule], rfl⟩
  | cons t rest ih =>
    intro sched k
    rw [computeSchedule_cons]
    obtain ⟨tail, h1, h2⟩ :=
      ih (sched ++ [(t.name, stepEntry rng t sched k)]) (t.simulate_duration rng k).2
    refine ⟨(t.name, stepEntry rng t sched k) :: tail, ?_, by simp [h2]⟩
    rw [h1, List.append_assoc]
    rfl

/-- Every recorded entry satisfies the schedule invariant: its finish is
its start plus its realized duration, and its start is 0 for a
dependency-free task and otherwise the maximum finish of its
dependencies' entries in the final schedule. -/
lemma computeSchedule_inv (rng : RNG) :
    ∀ (ts : List Task) (sched : Schedule) (k : ℕ),
      depsOrdered (sched.map Prod.fst) ts →
      (sched.map Prod.fst ++ ts.map Task.name).Nodup →
      ∀ t ∈ ts, ∀ e, List.lookup t.name (computeSchedule rng ts sched k).1 = some e →
        e.finish = e.start + e.duration ∧
        e.start = (if t.dependencies.isEmpty then 0
                   else maxFinish (computeSchedule rng ts sched k).1 t.dependencies) := by
  intro ts
  induction ts with
  | nil => intro sched k _ _ t ht; exact absurd ht (List.not_mem_nil t)
  | cons t0 rest ih =>
    intro sched k hord hnodup t ht e he
    have hsched2 : (sched ++ [(t0.name, stepEntry rng t0 sched k)]).map Prod.fst =
        sched.map Prod.fst ++ [t0.name] := by simp
    rcases List.mem_cons.mp ht with rfl | htr
    · -- the head task: its entry is the one just appended
      rw [computeSchedule_cons] at he ⊢
      obtain ⟨tail, hfin, hnames⟩ :=
        computeSchedule_shape rng rest (sched ++ [(t.name, stepEntry rng t sched k)])
          (t.simulate_duration rng k).2
      have hnotin : t.name ∉ sched.map Prod.fst := by
        intro hc
        exact (List.nodup_append.mp hnodup).2.2 hc (by simp)
      have hlook : List.lookup t.name (computeSchedule rng rest
          (sched ++ [(t.name, stepEntry rng t sched k)]) (t.simulate_duration rng k).2).1 =
          some (stepEntry rng t sched k) := by
        rw [hfin, List.append_assoc, lookup_append_of_none hnotin]
        simp [List.lookup]
      rw [hlook] at he
      obtain rfl : stepEntry rng t sched k = e := by injection he
      refine ⟨rfl, ?_⟩
      show (if t.dependencies.isEmpty then 0 else maxFinish sched t.dependencies) = _
      by_cases hdep : t.dependencies.isEmpty
      · rw [if_pos hdep, if_pos hdep]
      · rw [if_neg hdep, if_neg hdep, hfin, List.append_assoc,
          maxFinish_append_of_mem (fun d hd => hord.1 d hd)]
    · -- a later task: apply the induction hypothesis one step in
      rw [computeSchedule_cons] at he ⊢
      refine ih _ (t0.simulate_duration rng k).2 ?_ ?_ t htr e he
      · rw [hsched2]; exact hord.2
      · rw [hsched2]
        simpa [List.append_assoc] using hnodup

/-! ### Domination of the delay-free reference pass -/

/-- Entrywise comparison of two schedules: same keys in the same order,
with the left finishes dominating the right ones. -/
def SchedRel : Schedule → Schedule → Prop :=
  List.Forall₂ (fun p q => p.1 = q.1 ∧ q.2.finish ≤ p.2.finish)

lemma finishOf_mono : ∀ {s s0 : Schedule}, SchedRel s s0 →
    ∀ d, finishOf s0 d ≤ finishOf s d := by
  intro s s0 h
  induction h with
  | nil => intro d; exact le_refl _
  | @cons p q s1 s2 hpq hrel ih =>
    intro d
    obtain ⟨a, e⟩ := p
    obtain ⟨a2, e2⟩ := q
    obtain ⟨hname, hfin⟩ := hpq
    dsimp only at hname hfin
    subst hname
    unfold finishOf
    simp only [List.lookup]
    cases hba : (d == a)
    · exact ih d
    · exact hfin

lemma foldl_max_mono (f g : String → ℚ) (ds : List String)
    (hfg : ∀ d ∈ ds, f d ≤ g d) :
    ∀ a b : ℚ, a ≤ b →
      ds.foldl (fun x d => max x (f d)) a ≤ ds.foldl (fun x d => max x (g d)) b := by
  induction ds with
  | nil => intro a b hab; exact hab
  | cons d ds ih =>
    intro a b hab
    exact ih (fun x hx => hfg x (List.mem_cons_of_mem d hx)) _ _
      (max_le_max hab (hfg d (List.mem_cons_self d ds)))

lemma maxFinish_mono {s s0 : Schedule} (h : SchedRel s s0) :
    ∀ deps : List String, maxFinish s0 deps ≤ maxFinish s deps := by
  intro deps
  match deps with
  | [] => exact le_refl _
  | d :: ds =>
    simp only [maxFinish]
    exact foldl_max_mono _ _ ds (fun x _ => finishOf_mono h x) _ _ (finishOf_mono h d)

/-- The entry the delay-free reference pass records for task `t`. -/
def detStepEntry (t : Task) (sched : Schedule) : ScheduleEntry :=
  ⟨(if t.dependencies.isEmpty then 0 else maxFinish sched t.dependencies),
   (if t.dependencies.isEmpty then 0 else maxFinish sched t.dependencies) + t.base_duration,
   t.base_duration, t.value_added, t.base_duration⟩

lemma detSchedule_cons (t : Task) (rest : List Task) (sched : Schedule) :
    detSchedule (t :: rest) sched =
      detSchedule rest (sched ++ [(t.name, detStepEntry t sched)]) := rfl

/-- Over nonnegative random draws, the simulated schedule dominates the
delay-free reference pass entrywise. -/
lemma computeSchedule_mono (rng : RNG) (hrng : ∀ j, 0 ≤ rng j) :
    ∀ (ts : List Task) (sched sched0 : Schedule) (k : ℕ), SchedRel sched sched0 →
      SchedRel (computeSchedule rng ts sched k).1 (detSchedule ts sched0) := by
  intro ts
  induction ts with
  | nil => intro sched sched0 k h; exact h
  | cons t rest ih =>
    intro sched sched0 k h
    rw [computeSchedule_cons, detSchedule_cons]
    refine ih _ _ _ ?_
    refine List.rel_append h (List.forall₂_cons.mpr ⟨⟨rfl, ?_⟩, List.Forall₂.nil⟩)
    have hstart : (if t.dependencies.isEmpty then 0 else maxFinish sched0 t.dependencies) ≤
        (if t.dependencies.isEmpty then 0 else maxFinish sched t.dependencies) := by
      by_cases hdep : t.dependencies.isEmpty
      · rw [if_pos hdep, if_pos hdep]
      · rw [if_neg hdep, if_neg hdep]
        exact maxFinish_mono h t.dependencies
    have hdur := Task.base_le_simulate_duration t rng k hrng
    show (detStepEntry t sched0).finish ≤ (stepEntry rng t sched k).finish
    unfold detStepEntry stepEntry
    dsimp only
    exact add_le_add hstart hdur

/-- The delay-free reference pass on the hardcoded project, evaluated:
every task keeps its base duration and the forward pass yields the
critical-path finishes, ending at 110. -/
def detProjSched : Schedule :=
  [("Planejamento", ⟨0, 20, 20, true, 20⟩),
   ("Licenciamento", ⟨20, 30, 10, false, 10⟩),
   ("Mobilização", ⟨30, 35, 5, false, 5⟩),
   ("Escavação", ⟨35, 50, 15, true, 15⟩),
   ("Estrutura", ⟨50, 75, 25, true, 25⟩),
   ("Alvenaria", ⟨75, 95, 20, true, 20⟩),
   ("Instalações", ⟨75, 85, 10, true, 10⟩),
   ("Acabamentos", ⟨95, 105, 10, true, 10⟩),
   ("Inspeção", ⟨105, 110, 5, true, 5⟩)]

lemma detSchedule_project (li : ℚ) : detSchedule (projectTasks li) [] = detProjSched := by
  simp only [projectTasks, taskPlanejamento, taskLicenciamento, taskMobilizacao,
    taskEscavacao, taskEstrutura, taskAlvenaria, taskInstalacoes, taskAcabamentos,
    taskInspecao, detSchedule, maxFinish, finishOf, List.lookup, detProjSched]
  simp
  norm_num [max_def]

/-! ### The workhorse: one run of `simulate_project` -/

lemma lookup_some_of_mem {sched : Schedule} {d : String}
    (h : d ∈ sched.map Prod.fst) : ∃ e, List.lookup d sched = some e := by
  induction sched with
  | nil => simp at h
  | cons p sched ih =>
    obtain ⟨a, e⟩ := p
    by_cases hda : d = a
    · subst hda
      exact ⟨e, by simp [List.lookup]⟩
    · have hba : (d == a) = false := beq_eq_false_iff_ne.mpr hda
      simp only [List.map_cons, List.mem_cons] at h
      obtain ⟨e2, he2⟩ := ih (h.resolve_left hda)
      exact ⟨e2, by simp only [List.lookup, hba]; exact he2⟩

/-- `total_value_added` is a static sum: 20+15+25+20+10+10+5 = 105. -/
lemma tva_project (li : ℚ) :
    (((projectTasks li).filter (fun t : Task => t.value_added)).map Task.base_duration).sum =
      105 := by
  simp [projectTasks, taskPlanejamento, taskLicenciamento, taskMobilizacao, taskEscavacao,
    taskEstrutura, taskAlvenaria, taskInstalacoes, taskAcabamentos, taskInspecao]
  norm_num

lemma finishOf_detProjSched : finishOf detProjSched "Inspeção" = 110 := by
  simp [detProjSched, finishOf, List.lookup]

/-- One run of `simulate_project`, over nonnegative random draws: it
returns normally; `total_value_added` is 105; `total_duration` is the
finish of the entry recorded for "Inspeção" and is at least the
critical-path base sum 110; `efficiency` is `100 * (105 / td)`; the
schedule holds exactly the nine project tasks, keyed by name, in
topological (list) order. -/
theorem project_run (li : ℚ) (rng : RNG) (k : ℕ) (hrng : ∀ j, 0 ≤ rng j) :
    ∃ (sched : Schedule) (td : ℚ) (k2 : ℕ),
      simulateProjectK li rng k = .ok ((sched, td, 105, 100 * (105 / td)), k2) ∧
      sched = (computeSchedule rng (projectTasks li) [] k).1 ∧
      td = finishOf sched "Inspeção" ∧
      110 ≤ td ∧
      sched.map Prod.fst = projectNames := by
  obtain ⟨tail, hfin, hnames⟩ := computeSchedule_shape rng (projectTasks li) [] k
  have hnm : (computeSchedule rng (projectTasks li) [] k).1.map Prod.fst = projectNames := by
    rw [hfin, List.nil_append, hnames, projectTasks_map_name]
  have hIn : "Inspeção" ∈ (computeSchedule rng (projectTasks li) [] k).1.map Prod.fst := by
    rw [hnm]; simp [projectNames]
  obtain ⟨e, he⟩ := lookup_some_of_mem hIn
  have hrel : SchedRel (computeSchedule rng (projectTasks li) [] k).1 detProjSched := by
    have := computeSchedule_mono rng hrng (projectTasks li) [] [] k List.Forall₂.nil
    rwa [detSchedule_project] at this
  have hfe : finishOf (computeSchedule rng (projectTasks li) [] k).1 "Inspeção" = e.finish := by
    unfold finishOf
    rw [he]
  have hbound : 110 ≤ e.finish := by
    have h1 := finishOf_mono hrel "Inspeção"
    rw [finishOf_detProjSched, hfe] at h1
    exact h1
  have hvisit := visitAll_project li (tasksByName (projectTasks li)) recursionLimit
    (by norm_num [recursionLimit])
  refine ⟨(computeSchedule rng (projectTasks li) [] k).1, e.finish,
    (computeSchedule rng (projectTasks li) [] k).2, ?_, rfl, hfe.symm, hbound, hnm⟩
  unfold simulateProjectK
  rw [hvisit]
  simp only [Except.bind]
  rw [he]
  simp only [Except.bind]
  rw [tva_project li]
  unfold pydiv
  rw [if_neg (by intro hc; rw [hc] at hbound; linarith)]

/-! ### The fully deterministic run at `lean_improvement = 1` -/

/-- When no task can take the delay branch, the forward pass coincides
with the delay-free reference pass and consumes no randomness. -/
lemma computeSchedule_det (rng : RNG) :
    ∀ (ts : List Task) (sched : Schedule) (k : ℕ),
      (∀ t ∈ ts, ¬(t.value_added = false ∧ 0 < t.delay_factor)) →
      computeSchedule rng ts sched k = (detSchedule ts sched, k) := by
  intro ts
  induction ts with
  | nil => intro sched k _; rfl
  | cons t rest ih =>
    intro sched k h
    rw [computeSchedule_cons, detSchedule_cons]
    have hd := Task.simulate_duration_det rng k (h t (List.mem_cons_self t rest))
    rw [show stepEntry rng t sched k = detStepEntry t sched by
      unfold stepEntry detStepEntry; rw [hd]]
    rw [show (t.simulate_duration rng k).2 = k by rw [hd]]
    exact ih _ k (fun u hu => h u (List.mem_cons_of_mem t hu))

/-- At `lean_improvement = 1` both scaled delay factors are zero, so no
task can be delayed. -/
lemma projectTasks_one_no_delay :
    ∀ t ∈ projectTasks 1, ¬(t.value_added = false ∧ 0 < t.delay_factor) := by
  intro t ht
  simp only [projectTasks, List.mem_cons, List.not_mem_nil, or_false] at ht
  rcases ht with rfl | rfl | rfl | rfl | rfl | rfl | rfl | rfl | rfl
  all_goals
    norm_num [taskPlanejamento, taskLicenciamento, taskMobilizacao, taskEscavacao,
      taskEstrutura, taskAlvenaria, taskInstalacoes, taskAcabamentos, taskInspecao]

/-- At `lean_improvement = 1` a run of `simulate_project` is fully
deterministic: whatever the stream, the schedule is the delay-free
reference schedule, `total_duration` is 110, and no randomness is
consumed (the cursor does not move). -/
lemma simulateProjectK_one (rng : RNG) (k : ℕ) :
    simulateProjectK 1 rng k = .ok ((detProjSched, 110, 105, 100 * (105 / 110)), k) := by
  unfold simulateProjectK
  rw [visitAll_project 1 _ _ (by norm_num [recursionLimit])]
  simp only [Except.bind]
  rw [computeSchedule_det rng (projectTasks 1) [] k projectTasks_one_no_delay,
    detSchedule_project]
  rw [show List.lookup "Inspeção" detProjSched =
      some ⟨105, 110, 5, true, 5⟩ from by simp [detProjSched, List.lookup]]
  simp only [Except.bind]
  rw [tva_project 1]
  unfold pydiv
  rw [if_neg (by norm_num)]

/-! ### The Monte Carlo loop -/

/-- Over nonnegative random draws the loop performs exactly `n`
successful runs, each with `total_duration ≥ 110` and
`total_value_added = 105`. -/
lemma mcLoop_ok (li : ℚ) (rng : RNG) (hrng : ∀ j, 0 ≤ rng j) :
    ∀ (n k : ℕ), ∃ runs k2, mcLoop li rng n k = .ok (runs, k2) ∧
      runs.length = n ∧ ∀ p ∈ runs, 110 ≤ p.1 ∧ p.2 = 105 := by
  intro n
  induction n with
  | zero => intro k; exact ⟨[], k, rfl, rfl, by simp⟩
  | succ n ih =>
    intro k
    obtain ⟨sched, td, k2, hsp, _, _, hbound, _⟩ := project_run li rng k hrng
    obtain ⟨runs, k3, hloop, hlen, hall⟩ := ih k2
    refine ⟨(td, 105) :: runs, k3, ?_, by simp [hlen], ?_⟩
    · show (simulateProjectK li rng k).bind _ = _
      rw [hsp]
      simp only [Except.bind]
      rw [hloop]
    · intro p hp
      rcases List.mem_cons.mp hp with rfl | hpm
      · exact ⟨hbound, rfl⟩
      · exact hall p hpm

/-- Whenever the loop returns normally it recorded one result per
requested iteration. -/
lemma mcLoop_length (li : ℚ) (rng : RNG) :
    ∀ (n k : ℕ) (runs : List (ℚ × ℚ)) (k2 : ℕ),
      mcLoop li rng n k = .ok (runs, k2) → runs.length = n := by
  intro n
  induction n with
  | zero =>
    intro k runs k2 h
    simp only [mcLoop, Except.ok.injEq, Prod.mk.injEq] at h
    rw [← h.1]
    rfl
  | succ n ih =>
    intro k runs k2 h
    unfold mcLoop at h
    cases hs : simulateProjectK li rng k with
    | error e => rw [hs] at h; exact absurd h (by simp [Except.bind])
    | ok rk =>
      rw [hs] at h
      simp only [Except.bind] at h
      cases hl : mcLoop li rng n rk.2 with
      | error e => rw [hl] at h; exact absurd h (by simp [Except.bind])
      | ok rest =>
        rw [hl] at h
        simp only [Except.bind] at h
        simp only [Except.ok.injEq, Prod.mk.injEq] at h
        rw [← h.1]
        simp [ih rk.2 rest.1 rest.2 (by rw [hl])]

/-! ### Elementary facts about folded minima, maxima and means -/

lemma foldl_min_spec (xs : List ℚ) :
    ∀ x : ℚ, xs.foldl min x ≤ x ∧ ∀ y ∈ xs, xs.foldl min x ≤ y := by
  induction xs with
  | nil => intro x; exact ⟨le_refl x, by simp⟩
  | cons z zs ih =>
    intro x
    have h := ih (min x z)
    refine ⟨le_trans h.1 (min_le_left x z), ?_⟩
    intro y hy
    rcases List.mem_cons.mp hy with rfl | hmem
    · exact le_trans h.1 (min_le_right x y)
    · exact h.2 y hmem

lemma foldl_max_spec (xs : List ℚ) :
    ∀ x : ℚ, x ≤ xs.foldl max x ∧ ∀ y ∈ xs, y ≤ xs.foldl max x := by
  induction xs with
  | nil => intro x; exact ⟨le_refl x, by simp⟩
  | cons z zs ih =>
    intro x
    have h := ih (max x z)
    refine ⟨le_trans (le_max_left x z) h.1, ?_⟩
    intro y hy
    rcases List.mem_cons.mp hy with rfl | hmem
    · exact le_trans (le_max_right x y) h.1
    · exact h.2 y hmem

lemma length_mul_le_sum (l : List ℚ) (m : ℚ) (hm : ∀ y ∈ l, m ≤ y) :
    (l.length : ℚ) * m ≤ l.sum := by
  induction l with
  | nil => simp
  | cons z zs ih =>
    have h1 := hm z (List.mem_cons_self z zs)
    have h2 := ih (fun y hy => hm y (List.mem_cons_of_mem z hy))
    simp only [List.length_cons, List.sum_cons]
    push_cast
    linarith

lemma sum_le_length_mul (l : List ℚ) (m : ℚ) (hm : ∀ y ∈ l, y ≤ m) :
    l.sum ≤ (l.length : ℚ) * m := by
  induction l with
  | nil => simp
  | cons z zs ih =>
    have h1 := hm z (List.mem_cons_self z zs)
    have h2 := ih (fun y hy => hm y (List.mem_cons_of_mem z hy))
    simp only [List.length_cons, List.sum_cons]
    push_cast
    linarith

/-! ### Failure modes of the recursive traversal -/

/-- A two-task dependency cycle: A depends on B. -/
def taskA : Task :=
  { name := "A", base_duration := 1, value_added := true, dependencies := ["B"] }

/-- A two-task dependency cycle: B depends on A. -/
def taskB : Task :=
  { name := "B", base_duration := 1, value_added := true, dependencies := ["A"] }

/-- The cyclic project `A ↔ B`. -/
def cycTasks : List Task := [taskA, taskB]

/-- A task whose single dependency id is not defined anywhere. -/
def taskObra : Task :=
  { name := "Obra", base_duration := 1, value_added := true, dependencies := ["Fundações"] }

lemma byName_cyc_A : tasksByName cycTasks "A" = some taskA := by
  simp [tasksByName, cycTasks, taskA, taskB, List.find?]

lemma byName_cyc_B : tasksByName cycTasks "B" = some taskB := by
  simp [tasksByName, cycTasks, taskA, taskB, List.find?]

/-- On the cycle, `visit` burns one stack frame per step and never comes
back: for EVERY recursion limit it ends in `RecursionError`, because the
`seen` set only grows after a task's dependencies have been fully
visited, which never happens inside the cycle. -/
lemma cyc_visit_stuck :
    ∀ (fuel : ℕ) (st : VisitState),
      st.seen.contains "A" = false → st.seen.contains "B" = false →
      visit (tasksByName cycTasks) fuel taskA st = .error .recursionError ∧
      visit (tasksByName cycTasks) fuel taskB st = .error .recursionError := by
  intro fuel
  induction fuel with
  | zero => intro st _ _; exact ⟨rfl, rfl⟩
  | succ fuel ih =>
    intro st hA hB
    constructor
    · show (visitDepsWith _ (visit _ fuel) taskA.dependencies st).bind _ = _
      rw [show taskA.dependencies = ["B"] from rfl]
      unfold visitDepsWith
      rw [if_neg (by rw [hB]; simp), byName_cyc_B]
      dsimp only
      rw [(ih st hA hB).2]
      rfl
    · show (visitDepsWith _ (visit _ fuel) taskB.dependencies st).bind _ = _
      rw [show taskB.dependencies = ["A"] from rfl]
      unfold visitDepsWith
      rw [if_neg (by rw [hA]; simp), byName_cyc_A]
      dsimp only
      rw [(ih st hA hB).1]
      rfl

/-- The whole ordering pass on the cyclic project fails with
`RecursionError` at every recursion limit. -/
lemma cyc_topoOrder (fuel : ℕ) : topoOrder fuel cycTasks = .error .recursionError := by
  unfold topoOrder
  show ((visit (tasksByName cycTasks) fuel taskA ⟨[], []⟩).bind _).map _ = _
  rw [(cyc_visit_stuck fuel ⟨[], []⟩ rfl rfl).1]
  rfl

/-- An undefined dependency id makes `tasks_by_name[dep]` raise
`KeyError` naming that id. -/
lemma unknown_topoOrder :
    topoOrder recursionLimit [taskObra] = .error (.keyError "Fundações") := rfl

/-- Every entry the forward pass records realizes at least its base
duration, over nonnegative random draws. -/
lemma computeSchedule_dur_ge (rng : RNG) (hrng : ∀ j, 0 ≤ rng j) :
    ∀ (ts : List Task) (sched : Schedule) (k : ℕ),
      (∀ p ∈ sched, p.2.base_duration ≤ p.2.duration) →
      ∀ p ∈ (computeSchedule rng ts sched k).1, p.2.base_duration ≤ p.2.duration := by
  intro ts
  induction ts with
  | nil => intro sched k h; exact h
  | cons t rest ih =>
    intro sched k h
    rw [computeSchedule_cons]
    refine ih _ _ ?_
    intro p hp
    rcases List.mem_append.mp hp with hp1 | hp2
    · exact h p hp1
    · obtain rfl : p = (t.name, stepEntry rng t sched k) := by simpa using hp2
      exact Task.base_le_simulate_duration t rng k hrng

/-- "Inspeção" is the unique sink of the hardcoded dependency graph: no
task lists it as a dependency. -/
lemma sinks_project (li : ℚ) : sinks (projectTasks li) = ["Inspeção"] := by
  simp [sinks, projectTasks, taskPlanejamento, taskLicenciamento, taskMobilizacao,
    taskEscavacao, taskEstrutura, taskAlvenaria, taskInstalacoes, taskAcabamentos,
    taskInspecao]

/-- A 1-iteration Monte Carlo run at `lean_improvement = 1` over the zero
stream, fully evaluated. -/
lemma mc_one_eval :
    run_monte_carlo_simulation 1 1 (fun _ => 0) =
      .ok ⟨110, 105, 100 * (105 / 110), 110, 110⟩ := by
  unfold run_monte_carlo_simulation
  have h1 : mcLoop 1 (fun _ => 0) (Int.toNat 1) 0 = .ok ([(110, 105)], 0) := by
    show mcLoop 1 (fun _ => 0) 1 0 = _
    unfold mcLoop
    rw [simulateProjectK_one]
    rfl
  rw [h1]
  simp only [Except.bind]
  norm_num [pydiv, pymin, pymax, Except.bind]

/-! ### The claims -/

/-- C1: for every task processed in a run of `simulate_project` (over
real randomness, i.e. nonnegative draws), the recorded schedule entry
satisfies `finish = start + realized_duration`, and `start` equals the
maximum finish among the task's dependencies' entries, or 0 when the task
has no dependencies. -/
theorem claim_c1 (li : ℚ) (rng : RNG) (hrng : ∀ j, 0 ≤ rng j) :
    ∃ r : Schedule × ℚ × ℚ × ℚ, simulateProject li rng = .ok r ∧
      ∀ t ∈ projectTasks li, ∀ e, List.lookup t.name r.1 = some e →
        e.finish = e.start + e.duration ∧
        e.start = (if t.dependencies.isEmpty then 0 else maxFinish r.1 t.dependencies) := by
  obtain ⟨sched, td, k2, hok, hsched, _, _, _⟩ := project_run li rng 0 hrng
  subst hsched
  refine ⟨((computeSchedule rng (projectTasks li) [] 0).1, td, 105, 100 * (105 / td)),
    by unfold simulateProject; rw [hok]; rfl, ?_⟩
  intro t ht e he
  exact computeSchedule_inv rng (projectTasks li) [] 0 (projectTasks_depsOrdered li)
    (by simp [projectTasks_map_name, projectNames_nodup]) t ht e he

/-- C1 witness at `lean_improvement = 0` and the constant stream 1/2. -/
theorem claim_c1_witness :
    ∃ r : Schedule × ℚ × ℚ × ℚ, simulateProject 0 (fun _ => 1/2) = .ok r ∧
      ∀ t ∈ projectTasks 0, ∀ e, List.lookup t.name r.1 = some e →
        e.finish = e.start + e.duration ∧
        e.start = (if t.dependencies.isEmpty then 0 else maxFinish r.1 t.dependencies) :=
  claim_c1 0 (fun _ => 1/2) (fun _ => by norm_num)

/-- C2: `Task.simulate_duration` returns exactly `base_duration` with the
cursor untouched when the task adds value or its delay factor is
nonpositive; otherwise it reads one uniform draw and, when that draw is
below `delay_probability`, adds `delay_factor * u` (a value in
`[0, delay_factor)` for a draw `u ∈ [0,1)`) after reading a second draw,
else adds nothing after the single draw. -/
theorem claim_c2 (t : Task) (rng : RNG) (k : ℕ) :
    ((t.value_added = true ∨ t.delay_factor ≤ 0) →
      t.simulate_duration rng k = (t.base_duration, k)) ∧
    (t.value_added = false → 0 < t.delay_factor →
      ((rng k < t.delay_probability →
        t.simulate_duration rng k = (t.base_duration + t.delay_factor * rng (k + 1), k + 2) ∧
        (0 ≤ rng (k + 1) → rng (k + 1) < 1 →
          0 ≤ t.delay_factor * rng (k + 1) ∧ t.delay_factor * rng (k + 1) < t.delay_factor)) ∧
      (t.delay_probability ≤ rng k →
        t.simulate_duration rng k = (t.base_duration, k + 1)))) := by
  constructor
  · intro h
    apply Task.simulate_duration_det
    rintro ⟨hva, hdf⟩
    rcases h with h1 | h1
    · simp [h1] at hva
    · linarith
  · intro hva hdf
    constructor
    · intro hlt
      unfold Task.simulate_duration
      rw [if_pos ⟨hva, hdf⟩, if_pos hlt]
      exact ⟨rfl, fun h0 h1 =>
        ⟨mul_nonneg hdf.le h0, (mul_lt_iff_lt_one_right hdf).mpr h1⟩⟩
    · intro hge
      unfold Task.simulate_duration
      rw [if_pos ⟨hva, hdf⟩, if_neg (not_lt.mpr hge)]

/-- A non-value-adding probe task used to exercise the delay branch. -/
def probeTask : Task :=
  { name := "Sondagem", base_duration := 7, value_added := false,
    delay_factor := 2, delay_probability := 1/2, dependencies := [] }

/-- A probe stream whose first draw (1/4) falls below the probe task's
delay probability (1/2). -/
def probeStream : RNG := fun j => if j = 0 then 1/4 else 1/3

/-- C2 witness: the probe task takes the delay branch, consumes two
draws, and its delay `2 * (1/3)` lies in `[0, 2)`. -/
theorem claim_c2_witness :
    probeTask.simulate_duration probeStream 0 =
      (probeTask.base_duration + probeTask.delay_factor * probeStream 1, 0 + 2) ∧
    0 ≤ probeTask.delay_factor * probeStream 1 ∧
    probeTask.delay_factor * probeStream 1 < probeTask.delay_factor := by
  have h := ((claim_c2 probeTask probeStream 0).2 rfl
    (by norm_num [probeTask])).1 (by norm_num [probeTask, probeStream])
  exact ⟨h.1, (h.2 (by norm_num [probeStream]) (by norm_num [probeStream])).1,
    (h.2 (by norm_num [probeStream]) (by norm_num [probeStream])).2⟩

/-- C3: `total_value_added` is the static sum of base durations over the
value-adding tasks — 105 for the hardcoded project — independent of the
random draws and of `lean_improvement`: two runs on arbitrary nonnegative
streams both return exactly 105 in that position. -/
theorem claim_c3 (li : ℚ) (rng rng2 : RNG)
    (hrng : ∀ j, 0 ≤ rng j) (hrng2 : ∀ j, 0 ≤ rng2 j) :
    (((projectTasks li).filter (fun t : Task => t.value_added)).map Task.base_duration).sum =
      105 ∧
    (∃ sched td eff, simulateProject li rng = .ok (sched, td, 105, eff)) ∧
    (∃ sched td eff, simulateProject li rng2 = .ok (sched, td, 105, eff)) := by
  refine ⟨tva_project li, ?_, ?_⟩
  · obtain ⟨sched, td, k2, hok, _, _, _, _⟩ := project_run li rng 0 hrng
    exact ⟨sched, td, 100 * (105 / td), by unfold simulateProject; rw [hok]; rfl⟩
  · obtain ⟨sched, td, k2, hok, _, _, _, _⟩ := project_run li rng2 0 hrng2
    exact ⟨sched, td, 100 * (105 / td), by unfold simulateProject; rw [hok]; rfl⟩

/-- C3 witness at `lean_improvement = 0` over two constant streams. -/
theorem claim_c3_witness :
    (((projectTasks 0).filter (fun t : Task => t.value_added)).map Task.base_duration).sum =
      105 ∧
    (∃ sched td eff, simulateProject 0 (fun _ => 1/2) = .ok (sched, td, 105, eff)) ∧
    (∃ sched td eff, simulateProject 0 (fun _ => 1/4) = .ok (sched, td, 105, eff)) :=
  claim_c3 0 (fun _ => 1/2) (fun _ => 1/4) (fun _ => by norm_num) (fun _ => by norm_num)

/-- C4: with `lean_improvement = 1` both scaled delay factors are zero,
so every realized duration equals its base duration, the whole result is
the same for every randomness outcome, and `total_duration` is exactly
110, the critical-path sum of base durations
(20+10+5+15+25+20+10+5 through Planejamento → … → Alvenaria →
Acabamentos → Inspeção). -/
theorem claim_c4 (rng rng2 : RNG) :
    simulateProject 1 rng = simulateProject 1 rng2 ∧
    simulateProject 1 rng = .ok (detProjSched, 110, 105, 100 * (105 / 110)) ∧
    ∀ p ∈ detProjSched, p.2.duration = p.2.base_duration := by
  have h : ∀ r : RNG, simulateProject 1 r = .ok (detProjSched, 110, 105, 100 * (105 / 110)) := by
    intro r
    unfold simulateProject
    rw [simulateProjectK_one]
    rfl
  exact ⟨(h rng).trans (h rng2).symm, h rng, by decide⟩

/-- C5: the hardcoded graph has exactly one sink, "Inspeção", and every
run's `total_duration` equals that sink's recorded finish time. -/
theorem claim_c5 (li : ℚ) (rng : RNG) (hrng : ∀ j, 0 ≤ rng j) :
    sinks (projectTasks li) = ["Inspeção"] ∧
    ∃ r : Schedule × ℚ × ℚ × ℚ, simulateProject li rng = .ok r ∧
      r.2.1 = finishOf r.1 "Inspeção" := by
  refine ⟨sinks_project li, ?_⟩
  obtain ⟨sched, td, k2, hok, _, hfe, _, _⟩ := project_run li rng 0 hrng
  exact ⟨(sched, td, 105, 100 * (105 / td)),
    by unfold simulateProject; rw [hok]; rfl, hfe⟩

/-- C5 witness at `lean_improvement = 0` and the constant stream 1/2. -/
theorem claim_c5_witness :
    sinks (projectTasks 0) = ["Inspeção"] ∧
    ∃ r : Schedule × ℚ × ℚ × ℚ, simulateProject 0 (fun _ => 1/2) = .ok r ∧
      r.2.1 = finishOf r.1 "Inspeção" :=
  claim_c5 0 (fun _ => 1/2) (fun _ => by norm_num)

/-- C6: `simulate_project` is a function of the randomness stream alone
(given `lean_improvement`): two separate calls reading identical streams
— as produced by seeding the process-wide generator identically — return
identical schedules, total durations, total value added and
efficiencies. -/
theorem claim_c6 (li : ℚ) (rng rng2 : RNG) (h : ∀ j, rng j = rng2 j) :
    simulateProject li rng = simulateProject li rng2 := by
  have he : rng = rng2 := funext h
  rw [he]

/-- One seeded stream. -/
def seedStreamA : RNG := fun _ => 2/5

/-- A second stream from the same seed. -/
def seedStreamB : RNG := fun _ => 2/5

/-- C6 witness: two calls over the two identical seeded streams agree. -/
theorem claim_c6_witness :
    simulateProject 0 seedStreamA = simulateProject 0 seedStreamB :=
  claim_c6 0 seedStreamA seedStreamB (fun _ => rfl)

/-- C7 counterexample: on the two-task cycle `A ↔ B` the traversal does
NOT fail with a `CycleDetected` error — no such error exists in the code
— it recurses until the interpreter's recursion limit and dies with
`RecursionError`. -/
theorem claim_c7_counterexample :
    topoOrder recursionLimit cycTasks = .error PyErr.recursionError :=
  cyc_topoOrder recursionLimit

/-- C7 amended: (1) any task list given in dependency order with distinct
names is ordered successfully (for every positive recursion budget);
(2) in particular the hardcoded project is; (3) an undefined dependency
id fails with `KeyError` naming the id (the code's manifestation of an
unknown dependency, not a dedicated `UnknownDependency` error); (4) a
dependency cycle exhausts every recursion limit (`RecursionError`), with
no cycle detection. -/
theorem claim_c7_amended :
    (∀ (fuel : ℕ) (ts : List Task), 0 < fuel → (ts.map Task.name).Nodup →
      depsOrdered [] ts → topoOrder fuel ts = .ok ts) ∧
    (∀ li : ℚ, topoOrder recursionLimit (projectTasks li) = .ok (projectTasks li)) ∧
    topoOrder recursionLimit [taskObra] = .error (.keyError "Fundações") ∧
    (∀ fuel : ℕ, topoOrder fuel cycTasks = .error .recursionError) := by
  refine ⟨?_, fun li => ?_, unknown_topoOrder, cyc_topoOrder⟩
  · intro fuel ts hf hnodup hord
    unfold topoOrder
    rw [visitAll_ordered (tasksByName ts) fuel hf ts ⟨[], []⟩ hord (by simp) hnodup]
    simp [Except.map]
  · unfold topoOrder
    rw [visitAll_project li _ _ (by norm_num [recursionLimit])]
    rfl

/-- C7 witness: a dependency-free single task is ordered successfully
with a tiny recursion budget. -/
theorem claim_c7_witness :
    topoOrder 3 [taskPlanejamento] = .ok [taskPlanejamento] :=
  claim_c7_amended.1 3 [taskPlanejamento] (by norm_num)
    (by simp [taskPlanejamento]) (by simp [depsOrdered, taskPlanejamento])

/-- C8 counterexample: `num_simulations = 0` is NOT rejected with an
`InvalidParameter` error — no such error exists in the code — the loop
simply runs zero times and the average computation divides by zero. -/
theorem claim_c8_counterexample :
    run_monte_carlo_simulation 0 0 (fun _ => 0) = .error PyErr.zeroDivisionError := rfl

/-- C8 amended: the runner performs no validation.  For every
`num_simulations ≤ 0` it performs no runs and crashes with
`ZeroDivisionError` when averaging; for every positive `num_simulations`
it runs exactly that many simulations on the continuing stream and
returns the aggregate statistics. -/
theorem claim_c8_amended (n : ℤ) (li : ℚ) (rng : RNG)
    (hrng : ∀ j, 0 ≤ rng j) (hn : 0 < n) :
    (∃ (runs : List (ℚ × ℚ)) (k2 : ℕ) (s : MCStats),
      mcLoop li rng n.toNat 0 = .ok (runs, k2) ∧ (runs.length : ℤ) = n ∧
      run_monte_carlo_simulation n li rng = .ok s) ∧
    (∀ m : ℤ, m ≤ 0 → run_monte_carlo_simulation m li rng = .error .zeroDivisionError) := by
  constructor
  · obtain ⟨runs, k2, hloop, hlen, hall⟩ := mcLoop_ok li rng hrng n.toNat 0
    have hlen2 : (runs.length : ℤ) = n := by rw [hlen]; exact Int.toNat_of_nonneg hn.le
    have hnq : ((n : ℚ)) ≠ 0 := by
      have : (0 : ℚ) < (n : ℚ) := by exact_mod_cast hn
      linarith
    have hdur : ∀ y ∈ runs.map Prod.fst, (110 : ℚ) ≤ y := by
      intro y hy
      obtain ⟨p, hp, rfl⟩ := List.mem_map.mp hy
      exact (hall p hp).1
    have hlenpos : 0 < (runs.map Prod.fst).length := by
      rw [List.length_map, hlen]
      omega
    have hsumpos : 0 < (runs.map Prod.fst).sum := by
      have h1 := length_mul_le_sum (runs.map Prod.fst) 110 hdur
      have h2 : (0 : ℚ) < ((runs.map Prod.fst).length : ℚ) := by exact_mod_cast hlenpos
      nlinarith
    have havg : ((runs.map Prod.fst).sum / (n : ℚ)) ≠ 0 := by
      have : (0 : ℚ) < (n : ℚ) := by exact_mod_cast hn
      positivity
    suffices hs : ∃ s : MCStats, run_monte_carlo_simulation n li rng = .ok s by
      obtain ⟨s, hs⟩ := hs
      exact ⟨runs, k2, s, hloop, hlen2, hs⟩
    unfold run_monte_carlo_simulation
    rw [hloop]
    simp only [Except.bind]
    unfold pydiv
    rw [if_neg hnq]
    simp only [Except.bind]
    rw [if_neg hnq]
    simp only [Except.bind]
    rw [if_neg havg]
    simp only [Except.bind]
    cases hd : runs.map Prod.fst with
    | nil => rw [hd] at hlenpos; simp at hlenpos
    | cons d ds =>
      simp only [pymin, pymax, Except.bind]
      exact ⟨_, rfl⟩
  · intro m hm
    have hm0 : m.toNat = 0 := by omega
    unfold run_monte_carlo_simulation
    rw [hm0]
    show ((Except.ok ([], 0)).bind _ : Except PyErr MCStats) = _
    simp only [Except.bind]
    unfold pydiv
    rcases eq_or_lt_of_le hm with rfl | hneg
    · rw [if_pos (by norm_num)]
    · have hmq : ((m : ℚ)) ≠ 0 := by
        have : (m : ℚ) < 0 := by exact_mod_cast hneg
        linarith
      rw [if_neg hmq]
      simp only [Except.bind]
      rw [if_neg hmq]
      simp only [Except.bind]
      rw [if_pos (by simp)]

/-- C8 witness: one simulation at `lean_improvement = 1` over the zero
stream. -/
theorem claim_c8_witness :
    (∃ (runs : List (ℚ × ℚ)) (k2 : ℕ) (s : MCStats),
      mcLoop 1 (fun _ => 0) (Int.toNat 1) 0 = .ok (runs, k2) ∧ ((runs.length : ℤ) = 1) ∧
      run_monte_carlo_simulation 1 1 (fun _ => 0) = .ok s) ∧
    (∀ m : ℤ, m ≤ 0 → run_monte_carlo_simulation m 1 (fun _ => 0) =
      .error .zeroDivisionError) :=
  claim_c8_amended 1 1 (fun _ => 0) (fun _ => le_refl 0) (by norm_num)

/-- C9: whenever the Monte Carlo runner returns aggregate statistics, the
minimum observed duration is at most the mean duration, which is at most
the maximum observed duration. -/
theorem claim_c9 (n : ℤ) (li : ℚ) (rng : RNG) (s : MCStats)
    (h : run_monte_carlo_simulation n li rng = .ok s) :
    s.min_duration ≤ s.avg_duration ∧ s.avg_duration ≤ s.max_duration := by
  unfold run_monte_carlo_simulation at h
  cases hl : mcLoop li rng n.toNat 0 with
  | error e => rw [hl] at h; exact absurd h (by simp [Except.bind])
  | ok runs =>
    rw [hl] at h
    simp only [Except.bind] at h
    unfold pydiv at h
    by_cases hz : ((n : ℚ)) = 0
    · rw [if_pos hz] at h
      exact absurd h (by simp [Except.bind])
    · rw [if_neg hz] at h
      simp only [Except.bind] at h
      rw [if_neg hz] at h
      simp only [Except.bind] at h
      by_cases hz2 : (runs.1.map Prod.fst).sum / (n : ℚ) = 0
      · rw [if_pos hz2] at h
        exact absurd h (by simp [Except.bind])
      · rw [if_neg hz2] at h
        simp only [Except.bind] at h
        cases hd : runs.1.map Prod.fst with
        | nil =>
          rw [hd] at h
          exact absurd h (by simp [pymin, Except.bind])
        | cons d ds =>
          rw [hd] at h
          simp only [pymin, pymax, Except.bind, Except.ok.injEq] at h
          subst h
          have hlen := mcLoop_length li rng n.toNat 0 runs.1 runs.2 (by rw [hl])
          have hlen2 : ds.length + 1 = n.toNat := by
            have : (d :: ds).length = runs.1.length := by rw [← hd, List.length_map]
            simp at this
            omega
          have hnpos : 0 < n := by
            rcases lt_trichotomy n 0 with hlt | rfl | hgt
            · exfalso
              have : n.toNat = 0 := by omega
              omega
            · exfalso
              exact hz (by norm_num)
            · exact hgt
          have hcast : ((n : ℚ)) = (((d :: ds).length : ℕ) : ℚ) := by
            have h1 : ((d :: ds).length : ℤ) = n := by
              simp only [List.length_cons]
              omega
            exact_mod_cast h1.symm
          have hlpos : (0 : ℚ) < ((d :: ds).length : ℕ) := by
            exact_mod_cast Nat.succ_pos ds.length
          obtain ⟨hm1, hm2⟩ := foldl_min_spec ds d
          obtain ⟨hx1, hx2⟩ := foldl_max_spec ds d
          constructor
          · have hgoal : ds.foldl min d ≤ (d :: ds).sum / (n : ℚ) := by
              rw [hcast, le_div_iff₀ hlpos]
              have h3 := length_mul_le_sum (d :: ds) (ds.foldl min d) (fun y hy => by
                rcases List.mem_cons.mp hy with rfl | hmem
                exacts [hm1, hm2 y hmem])
              rw [mul_comm]
              exact h3
            exact hgoal
          · have hgoal : (d :: ds).sum / (n : ℚ) ≤ ds.foldl max d := by
              rw [hcast, div_le_iff₀ hlpos]
              have h3 := sum_le_length_mul (d :: ds) (ds.foldl max d) (fun y hy => by
                rcases List.mem_cons.mp hy with rfl | hmem
                exacts [hx1, hx2 y hmem])
              rw [mul_comm]
              exact h3
            exact hgoal
          
/-- C9 witness: the aggregate of the 1-run Monte Carlo at
`lean_improvement = 1` over the zero stream. -/
theorem claim_c9_witness :
    (⟨110, 105, 100 * (105 / 110), 110, 110⟩ : MCStats).min_duration ≤
      (⟨110, 105, 100 * (105 / 110), 110, 110⟩ : MCStats).avg_duration ∧
    (⟨110, 105, 100 * (105 / 110), 110, 110⟩ : MCStats).avg_duration ≤
      (⟨110, 105, 100 * (105 / 110), 110, 110⟩ : MCStats).max_duration :=
  claim_c9 1 1 (fun _ => 0) ⟨110, 105, 100 * (105 / 110), 110, 110⟩ mc_one_eval

/-- C10: for `lean_improvement ∈ [0,1]` and draws in `[0,1)`, every
recorded realized duration is at least its base duration, so
`total_duration` is at least the critical-path base sum 110 and strictly
positive — hence the efficiency division cannot divide by zero and the
run returns normally. -/
theorem claim_c10 (li : ℚ) (rng : RNG) (_hli : 0 ≤ li ∧ li ≤ 1)
    (hrng : ∀ j, 0 ≤ rng j ∧ rng j < 1) :
    ∃ r : Schedule × ℚ × ℚ × ℚ, simulateProject li rng = .ok r ∧
      (∀ p ∈ r.1, p.2.base_duration ≤ p.2.duration) ∧
      110 ≤ r.2.1 ∧ 0 < r.2.1 := by
  obtain ⟨sched, td, k2, hok, hsched, _, hbound, _⟩ := project_run li rng 0
    (fun j => (hrng j).1)
  subst hsched
  refine ⟨((computeSchedule rng (projectTasks li) [] 0).1, td, 105, 100 * (105 / td)),
    by unfold simulateProject; rw [hok]; rfl, ?_, hbound, by linarith⟩
  exact computeSchedule_dur_ge rng (fun j => (hrng j).1) (projectTasks li) [] 0 (by simp)

/-- C10 witness at `lean_improvement = 1/2` and the constant stream 1/2. -/
theorem claim_c10_witness :
    ∃ r : Schedule × ℚ × ℚ × ℚ, simulateProject (1/2) (fun _ => 1/2) = .ok r ∧
      (∀ p ∈ r.1, p.2.base_duration ≤ p.2.duration) ∧
      110 ≤ r.2.1 ∧ 0 < r.2.1 :=
  claim_c10 (1/2) (fun _ => 1/2) (by norm_num) (fun _ => by norm_num)

end LeanConstruction
